import Mathlib

/-
Verification of the uniqush-conn message center against its specification.

The Go sources embedded here:
  * the tree-based connection registry (treeBasedConnMap: AddConn / GetConn /
    DelConn), modelled as an association list keyed by username;
  * the service-center event loop (process): join / leave / write events,
    the nrConns counter, and the push-fallback task;
  * push-info synthesis (getPushInfo) over string-to-string header maps;
  * the webhook configuration parser (parseWebHook / setWebHook).

Go maps are modelled as association lists with first-match lookup,
replace-first-or-append insertion and key erasure; Go ints are Int;
fallible operations return Except.
-/

namespace Uniqush

/-- Association-list model of a Go string-to-string map. -/
abbrev Smap := List (String × String)

/-- Lookup of the first binding of a key (Go map read). -/
def mapGet (m : Smap) (k : String) : Option String :=
  match m with
  | [] => none
  | p :: rest => if p.1 = k then some p.2 else mapGet rest k

/-- Replace the first binding of a key, or append one (Go map write). -/
def mapInsert (k v : String) (m : Smap) : Smap :=
  match m with
  | [] => [(k, v)]
  | p :: rest => if p.1 = k then (k, v) :: rest else p :: mapInsert k v rest

/-- Remove every binding of a key (Go delete). -/
def mapErase (k : String) (m : Smap) : Smap :=
  match m with
  | [] => []
  | p :: rest => if p.1 = k then mapErase k rest else p :: mapErase k rest

/-- Modelled from the spec: proto.Message is not under src/. Per the data
model, a message has two distinguished string attributes `sender` and
`senderService`, a string-to-string header map, and may carry a `size`
(integer, bytes); `Size()` returns that intrinsic size. -/
structure Message where
  sender : String
  senderService : String
  header : Smap
  size : Nat
deriving DecidableEq

/-- Embedding of strings.HasPrefix via character lists (kernel-reducible). -/
def hasPfx (p s : String) : Bool := p.data.isPrefixOf s.data

/-- A header key is copied by the forward branch of getPushInfo iff it is
prefixed by "notif." but not by the reserved "notif.uniqush." namespace. -/
def copyable (k : String) : Bool :=
  hasPfx "notif." k && !(hasPfx "notif.uniqush." k)

/-- The forward-branch loop of getPushInfo: for each header pair, copy the
non-reserved "notif."-prefixed ones into extra and delete them from the
header map. Iterates the original key set while mutating the header,
exactly as the Go range-with-delete does. -/
def copyLoop : List (String × String) → Smap → Smap → Smap × Smap
  | [], extra, hdr => (extra, hdr)
  | (k, v) :: rest, extra, hdr =>
    if hasPfx "notif." k then
      if hasPfx "notif.uniqush." k then
        copyLoop rest extra hdr
      else
        copyLoop rest (mapInsert k v extra) (mapErase k hdr)
    else
      copyLoop rest extra hdr

/-- The title fallback of getPushInfo: when the (possibly stripped) header
carries "title" and extra lacks "notif.msg", set it from the title. -/
def titleStep (hdr extra : Smap) : Smap :=
  match mapGet hdr "title" with
  | some title =>
    match mapGet extra "notif.msg" with
    | some _ => extra
    | none => mapInsert "notif.msg" title extra
  | none => extra

/-- Embedding of getPushInfo. A nil extra map becomes a fresh empty one.
When fwd is set, the copy loop runs and the sender attribution keys are
written; then the title fallback and the synthesized message size. The Go
function mutates msg.Header in place; here the updated message is returned
alongside the extra map. -/
def getPushInfo (msg : Message) (extra : Option Smap) (fwd : Bool) :
    Smap × Message :=
  let extra0 := extra.getD []
  let step1 :=
    if fwd then
      let copied := copyLoop msg.header extra0 msg.header
      (mapInsert "uniqush.sender-service" msg.senderService
        (mapInsert "uniqush.sender" msg.sender copied.1), copied.2)
    else
      (extra0, msg.header)
  let e2 := titleStep step1.2 step1.1
  let e3 := mapInsert "notif.uniqush.msgsize" (toString msg.size) e2
  (e3, { msg with header := step1.2 })

/-- A concrete message carrying one copyable notification header. -/
def c6msg : Message :=
  { sender := "alice", senderService := "chat",
    header := [("notif.a", "1")], size := 5 }

/-- A connection as the message center sees it. The registry reads only
username and uniqId (the minimalConn interface); the write path
additionally reads service and visible. isServer models whether the stored
value passes the type assertion to server.Conn, and sendErr is the outcome
its SendMessage returns during a write event. -/
structure Conn where
  service : String
  username : String
  uniqId : String
  visible : Bool
  isServer : Bool
  sendErr : Option String
deriving DecidableEq

/-- Embedding of connKey: the registry keys entries by username. -/
def connKey (c : Conn) : String := c.username

/-- Registry errors (ErrTooManyUsers, ErrTooManyConnForThisUser). -/
inductive RegErr where
  | tooManyUsers
  | tooManyConnForThisUser
deriving DecidableEq

/-- First-match lookup in the entry list (the LLRB tree keyed by username,
modelled as an association list; spec section 9 endorses keying entries by
username directly). -/
def entGet : List (String × List Conn) → String → Option (List Conn)
  | [], _ => none
  | e :: rest, u => if e.1 = u then some e.2 else entGet rest u

/-- ReplaceOrInsert on the entry list. -/
def entPut : List (String × List Conn) → String → List Conn →
    List (String × List Conn)
  | [], u, cl => [(u, cl)]
  | e :: rest, u, cl => if e.1 = u then (u, cl) :: rest else e :: entPut rest u cl

/-- Delete on the entry list; the flag reports whether an item was found
(the LLRB Delete returns the removed item, nil when absent). -/
def entDel : List (String × List Conn) → String →
    List (String × List Conn) × Bool
  | [], _ => ([], false)
  | e :: rest, u =>
    if e.1 = u then (rest, true)
    else ((e :: (entDel rest u).1), (entDel rest u).2)

/-- The connection registry: an ordered map from username to the list of
that user's live connections. -/
structure Registry where
  entries : List (String × List Conn)
deriving DecidableEq

/-- Embedding of treeBasedConnMap.GetConn: none models the nil slice
returned when the user has no entry. -/
def GetConn (reg : Registry) (user : String) : Option (List Conn) :=
  entGet reg.entries user

/-- The tail of AddConn once the entry list has been resolved: per-user
capacity check, idempotent re-add scan by uniqId, then append and
reinsert. -/
def addConnWithList (reg : Registry) (c : Conn) (cl : List Conn)
    (maxNrConnsPerUser : Int) : Except RegErr Registry :=
  if maxNrConnsPerUser > 0 ∧ (cl.length : Int) ≥ maxNrConnsPerUser then
    Except.error RegErr.tooManyConnForThisUser
  else if cl.any (fun x => x.uniqId == c.uniqId) then
    Except.ok reg
  else
    Except.ok ⟨entPut reg.entries (connKey c) (cl ++ [c])⟩

/-- Embedding of treeBasedConnMap.AddConn. A nil connection is reported as
success without any change. An absent entry is subject to the global user
cap before an empty list is materialized for it. -/
def AddConn (reg : Registry) (conn : Option Conn)
    (maxNrConnsPerUser maxNrUsers : Int) : Except RegErr Registry :=
  match conn with
  | none => Except.ok reg
  | some c =>
    match GetConn reg (connKey c) with
    | none =>
      if maxNrUsers > 0 ∧ (reg.entries.length : Int) ≥ maxNrUsers then
        Except.error RegErr.tooManyUsers
      else addConnWithList reg c [] maxNrConnsPerUser
    | some cl => addConnWithList reg c cl maxNrConnsPerUser

/-- The scan index DelConn is left with. The Go loop is
  i := -1; for i, c = range cl ... break on match
so after the loop i is the index of the first match when one exists, the
last index (len-1) when the list is non-empty and nothing matched, and -1
only when the list is empty. -/
def goScanIdx (cl : List Conn) (uid : String) : Int :=
  match cl.findIdx? (fun c => c.uniqId == uid) with
  | some i => (i : Int)
  | none => (cl.length : Int) - 1

/-- Embedding of treeBasedConnMap.DelConn: swap-with-last removal driven by
goScanIdx, with the single-element and emptied-entry paths deleting the
whole entry. -/
def DelConn (reg : Registry) (conn : Option Conn) : Bool × Registry :=
  match conn with
  | none => (false, reg)
  | some c =>
    match GetConn reg (connKey c) with
    | none => (false, reg)
    | some cl =>
      let i := goScanIdx cl c.uniqId
      if i < 0 then (false, reg)
      else if cl.length = 1 then
        let d := entDel reg.entries (connKey c)
        if d.2 then (true, ⟨d.1⟩) else (false, reg)
      else
        match cl.getLast? with
        | none => (false, reg)
        | some last =>
          let cl2 := (cl.set i.toNat last).dropLast
          if cl2.length = 0 then (true, ⟨(entDel reg.entries (connKey c)).1⟩)
          else (true, ⟨entPut reg.entries (connKey c) cl2⟩)

/-- Total number of connections stored in the registry. -/
def Registry.totalConns (reg : Registry) : Nat :=
  (reg.entries.map (fun e => e.2.length)).sum

/-! ## The service-center event loop (process): join and leave -/

/-- Event-loop state owned by process: the registry and the nrConns
counter. -/
structure SCState where
  registry : Registry
  nrConns : Int
deriving DecidableEq

/-- The reply a join event sends on its error channel. -/
inductive JoinReply where
  | ok
  | tooManyConns
  | regErr (e : RegErr)
deriving DecidableEq

/-- Membership events serialized through the event loop. -/
inductive Event where
  | join (conn : Option Conn)
  | leave (conn : Conn)

/-- The join branch of process: global cap check, registry AddConn, and the
counter increment on success. -/
def stepJoin (maxNrConns maxNrConnsPerUser maxNrUsers : Int) (s : SCState)
    (c : Option Conn) : SCState × JoinReply :=
  if maxNrConns > 0 ∧ s.nrConns ≥ maxNrConns then (s, JoinReply.tooManyConns)
  else
    match AddConn s.registry c maxNrConnsPerUser maxNrUsers with
    | Except.error e => (s, JoinReply.regErr e)
    | Except.ok reg => ({ registry := reg, nrConns := s.nrConns + 1 }, JoinReply.ok)

/-- The leave branch of process: DelConn, then decrement and logout only
when the registry reports a deletion. The Bool is whether the logout hook
fires. -/
def stepLeave (s : SCState) (c : Conn) : SCState × Bool :=
  let d := DelConn s.registry (some c)
  if d.1 then ({ registry := d.2, nrConns := s.nrConns - 1 }, true)
  else ({ registry := d.2, nrConns := s.nrConns }, false)

/-- One event-loop step (join or leave). -/
def stepEvent (maxNrConns maxNrConnsPerUser maxNrUsers : Int) (s : SCState) :
    Event → SCState
  | Event.join c => (stepJoin maxNrConns maxNrConnsPerUser maxNrUsers s c).1
  | Event.leave c => (stepLeave s c).1

/-- Run a sequence of membership events from the initial process state
(fresh registry, nrConns = 0). -/
def runEvents (maxNrConns maxNrConnsPerUser maxNrUsers : Int)
    (evts : List Event) : SCState :=
  evts.foldl (stepEvent maxNrConns maxNrConnsPerUser maxNrUsers) ⟨⟨[]⟩, 0⟩

/-! ## The write branch of process -/

/-- The per-connection delivery result (msgcenter.Result). -/
structure Result where
  err : Option String
  connId : String
  visible : Bool
deriving DecidableEq

/-- The delivery loop of the write branch: skip values failing the
server.Conn assertion; on send error record the result, collect the
connection in the error set (the error hook fires for it); otherwise record
the result and count visible recipients. Returns (res, errConns, n). -/
def writeLoop : List Conn → List Result × List Conn × Nat
  | [] => ([], [], 0)
  | c :: rest =>
    let r := writeLoop rest
    if c.isServer = false then r
    else
      match c.sendErr with
      | some e => (⟨some e, c.uniqId, c.visible⟩ :: r.1, c :: r.2.1, r.2.2)
      | none =>
        (⟨none, c.uniqId, c.visible⟩ :: r.1, r.2.1,
          if c.visible then r.2.2 + 1 else r.2.2)

/-- The write branch after the loop: when the reached counter n is zero,
exactly one asynchronous push-fallback task is launched. Returns (res,
errConns, reached, number of fallback tasks launched). -/
def writeEvent (conns : List Conn) : List Result × List Conn × Nat × Nat :=
  let r := writeLoop conns
  (r.1, r.2.1, r.2.2, if r.2.2 = 0 then 1 else 0)

/-- Number of push-fallback tasks a write over these connections launches. -/
def nrPushTasks (conns : List Conn) : Nat := (writeEvent conns).2.2.2

/-- Stated from the claim: the number of visible connections that received
the message without error. -/
def nrVisibleDelivered (conns : List Conn) : Nat :=
  conns.countP (fun c => c.isServer && c.sendErr.isNone && c.visible)

/-! ## The push-fallback task -/

/-- Environment the fallback task runs against: the push-hook decision, the
presence of a push service, its delivery-point count, the outcome of each
cacheMessage call, and the error Push returns (none for success). -/
structure PushEnv where
  shouldPush : Bool
  hasPushService : Bool
  nrPoints : Int
  cacheRes : Nat → Except String String
  pushErr : Option String

/-- Observable actions of the fallback task. -/
inductive FAction where
  | cacheCall (i : Nat)
  | pushCall
  | errorHook (e : String)
deriving DecidableEq

/-- Embedding of serviceCenter.nrDeliveryPoints: zero unless a push service
is configured. -/
def nrDeliveryPointsEnv (env : PushEnv) : Int :=
  if env.hasPushService then env.nrPoints else 0

/-- The caching loop of the fallback task: one cacheMessage call per
delivery point, aborting on the first error (the error is dropped). The
Bool reports whether every call succeeded. -/
def cacheLoop (env : PushEnv) : Nat → Nat → List FAction × Bool
  | 0, _ => ([], true)
  | k + 1, i =>
    match env.cacheRes i with
    | Except.ok _ =>
      let r := cacheLoop env k (i + 1)
      (FAction.cacheCall i :: r.1, r.2)
    | Except.error _ => ([FAction.cacheCall i], false)

/-- Embedding of serviceCenter.pushNotif: call Push when a push service is
configured, reporting a push error through the error hook. -/
def pushNotifActs (env : PushEnv) : List FAction :=
  if env.hasPushService then
    FAction.pushCall ::
      (match env.pushErr with
       | some e => [FAction.errorHook e]
       | none => [])
  else []

/-- The asynchronous push-fallback task launched by the write branch:
should-push gate, delivery-point gate, the caching loop (aborting the task
on any cache error), then pushNotif. -/
def fallbackTask (env : PushEnv) : List FAction :=
  if env.shouldPush = false then []
  else
    let n := nrDeliveryPointsEnv env
    if n ≤ 0 then []
    else
      let r := cacheLoop env n.toNat 0
      if r.2 then r.1 ++ pushNotifActs env
      else r.1

/-- The full write branch: the synchronous result list, and the actions of
the fallback task (launched only when no visible recipient was reached). -/
def writeHandler (conns : List Conn) (env : PushEnv) :
    List Result × List FAction :=
  let r := writeEvent conns
  (r.1, if r.2.2.1 = 0 then fallbackTask env else [])

/-! ## Webhook configuration parsing -/

/-- The projection of a yaml.Map webhook node onto the three keys
parseWebHook consults; a none field models an absent key (whose Go
zero-value is what parseWebHook leaves in place). Durations are
nanoseconds. -/
structure YamlWebhookNode where
  url : Option String
  timeout : Option Int
  defaultValue : Option String
deriving DecidableEq

/-- The webhookInfo record parseWebHook fills in. -/
structure WebhookInfo where
  url : String
  timeout : Int
  defaultValue : String
deriving DecidableEq

/-- The configured hook after setWebHook (webhook.webHook fields). -/
structure Hook where
  url : String
  timeout : Int
  defaultCode : Int
deriving DecidableEq

/-- Embedding of parseWebHook: url is mandatory; an absent timeout or
default leaves the zero value (0 and the empty string). -/
def parseWebHook (node : YamlWebhookNode) : Except String WebhookInfo :=
  match node.url with
  | none => Except.error "webhook should have url"
  | some u =>
    Except.ok
      { url := u, timeout := node.timeout.getD 0,
        defaultValue := node.defaultValue.getD "" }

/-- Embedding of setWebHook: the per-service timeout replaces the parsed
one only when the parsed one is negative; "allow" maps to default 200, all
else to 404. -/
def setWebHook (node : YamlWebhookNode) (timeout : Int) : Except String Hook :=
  match parseWebHook node with
  | Except.error e => Except.error e
  | Except.ok hook =>
    Except.ok
      { url := hook.url,
        timeout := if hook.timeout < 0 then timeout else hook.timeout,
        defaultCode := if hook.defaultValue = "allow" then 200 else 404 }

/-- The per-service timeout computed by parseService: 3 seconds (in
nanoseconds) unless the service specifies one. -/
def serviceTimeout (specified : Option Int) : Int :=
  specified.getD 3000000000

/-- Length of the entry list stored for a user (0 when absent). -/
def entryLen (reg : Registry) (u : String) : Nat :=
  ((GetConn reg u).getD []).length

/-- Whether a cacheMessage outcome is an error. -/
def exIsErr : Except String String → Bool
  | Except.error _ => true
  | Except.ok _ => false

/-- A sample visible server connection of user "u" with uniqId "a". -/
def cA : Conn :=
  { service := "s", username := "u", uniqId := "a", visible := true,
    isServer := true, sendErr := none }

/-- A sample connection of the same user with a different uniqId "b". -/
def cB : Conn :=
  { service := "s", username := "u", uniqId := "b", visible := true,
    isServer := true, sendErr := none }

/-- A registry holding exactly connection cA under user "u". -/
def regUA : Registry := ⟨[("u", [cA])]⟩

/-- A webhook node with a url but no timeout key. -/
def hookNodeNoTimeout : YamlWebhookNode :=
  { url := some "http://example.com/hook", timeout := none,
    defaultValue := none }

/-- A push environment whose single delivery point fails to cache. -/
def envW : PushEnv :=
  { shouldPush := true, hasPushService := true, nrPoints := 1,
    cacheRes := fun _ => Except.error "boom", pushErr := none }

/-! ## Theorems -/

theorem mapGet_insert_self (k v : String) (m : Smap) :
    mapGet (mapInsert k v m) k = some v := by
  induction m with
  | nil => simp [mapInsert, mapGet]
  | cons p rest ih =>
    by_cases h : p.1 = k
    · simp [mapInsert, mapGet, h]
    · simp [mapInsert, mapGet, h, ih]

theorem mapGet_insert_ne (k v k' : String) (m : Smap) (h : k' ≠ k) :
    mapGet (mapInsert k v m) k' = mapGet m k' := by
  induction m with
  | nil => simp [mapInsert, mapGet, Ne.symm h]
  | cons p rest ih =>
    obtain ⟨a, b⟩ := p
    by_cases hp : a = k
    · subst hp
      simp [mapInsert, mapGet, Ne.symm h]
    · by_cases hp' : a = k'
      · subst hp'
        simp [mapInsert, mapGet, hp]
      · simp [mapInsert, mapGet, hp, hp', ih]

theorem mapInsert_get_eq (k v : String) (m : Smap) (h : mapGet m k = some v) :
    mapInsert k v m = m := by
  induction m with
  | nil => simp [mapGet] at h
  | cons p rest ih =>
    obtain ⟨a, b⟩ := p
    by_cases hp : a = k
    · subst hp
      simp [mapGet] at h
      subst h
      simp [mapInsert]
    · simp [mapGet, hp] at h
      simp [mapInsert, hp, ih h]

theorem mapGet_erase_self (k : String) (m : Smap) :
    mapGet (mapErase k m) k = none := by
  induction m with
  | nil => simp [mapErase, mapGet]
  | cons p rest ih =>
    by_cases hp : p.1 = k
    · simp [mapErase, hp, ih]
    · simp [mapErase, mapGet, hp, ih]

theorem mapGet_erase_ne (k k' : String) (m : Smap) (h : k' ≠ k) :
    mapGet (mapErase k m) k' = mapGet m k' := by
  induction m with
  | nil => simp [mapErase]
  | cons p rest ih =>
    obtain ⟨a, b⟩ := p
    by_cases hp : a = k
    · subst hp
      simp [mapErase, mapGet, Ne.symm h, ih]
    · by_cases hp' : a = k'
      · subst hp'
        simp [mapErase, mapGet, hp]
      · simp [mapErase, mapGet, hp, hp', ih]

theorem mem_mapErase {p : String × String} (k : String) (m : Smap) :
    p ∈ mapErase k m ↔ p ∈ m ∧ p.1 ≠ k := by
  induction m with
  | nil => simp [mapErase]
  | cons q rest ih =>
    by_cases hq : q.1 = k
    · constructor
      · intro hm
        rw [mapErase, if_pos hq] at hm
        have := ih.mp hm
        exact ⟨List.mem_cons_of_mem _ this.1, this.2⟩
      · rintro ⟨hm, hne⟩
        rw [mapErase, if_pos hq]
        rcases List.mem_cons.mp hm with h | h
        · exact absurd (h ▸ hq) hne
        · exact ih.mpr ⟨h, hne⟩
    · constructor
      · intro hm
        rw [mapErase, if_neg hq] at hm
        rcases List.mem_cons.mp hm with h | h
        · refine ⟨h ▸ List.mem_cons_self _ _, ?_⟩
          rw [h]
          exact hq
        · have := ih.mp h
          exact ⟨List.mem_cons_of_mem _ this.1, this.2⟩
      · rintro ⟨hm, hne⟩
        rw [mapErase, if_neg hq]
        rcases List.mem_cons.mp hm with h | h
        · exact h ▸ List.mem_cons_self _ _
        · exact List.mem_cons_of_mem _ (ih.mpr ⟨h, hne⟩)

theorem mapGet_eq_none_iff (m : Smap) (k : String) :
    mapGet m k = none ↔ k ∉ m.map Prod.fst := by
  induction m with
  | nil => simp [mapGet]
  | cons p rest ih =>
    obtain ⟨a, b⟩ := p
    by_cases hp : a = k
    · subst hp
      simp [mapGet]
    · simp [mapGet, hp, ih, Ne.symm hp]

/-! ## Messages and push-info synthesis (getPushInfo) -/

theorem copyLoop_get_of_not_mem (todo : List (String × String)) (e h : Smap)
    (k : String) (hk : k ∉ todo.map Prod.fst) :
    mapGet (copyLoop todo e h).1 k = mapGet e k ∧
      mapGet (copyLoop todo e h).2 k = mapGet h k := by
  induction todo generalizing e h with
  | nil => exact ⟨rfl, rfl⟩
  | cons p rest ih =>
    obtain ⟨a, b⟩ := p
    have hak : k ≠ a := by
      intro hh
      exact hk (by simp [hh])
    have hrest : k ∉ rest.map Prod.fst := by
      intro hh
      exact hk (by simp [hh])
    rw [copyLoop]
    by_cases h1 : hasPfx "notif." a
    · by_cases h2 : hasPfx "notif.uniqush." a
      · simp only [h1, h2, if_true]
        exact ih _ _ hrest
      · simp only [h1, h2, if_true, Bool.false_eq_true, if_false]
        have := ih (mapInsert a b e) (mapErase a h) hrest
        rw [this.1, this.2, mapGet_insert_ne _ _ _ _ hak, mapGet_erase_ne _ _ _ hak]
        exact ⟨rfl, rfl⟩
    · simp only [h1, if_false]
      exact ih _ _ hrest

theorem copyLoop_get_of_not_copyable (todo : List (String × String)) (e h : Smap)
    (k : String) (hk : copyable k = false) :
    mapGet (copyLoop todo e h).1 k = mapGet e k ∧
      mapGet (copyLoop todo e h).2 k = mapGet h k := by
  induction todo generalizing e h with
  | nil => exact ⟨rfl, rfl⟩
  | cons p rest ih =>
    obtain ⟨a, b⟩ := p
    rw [copyLoop]
    by_cases h1 : hasPfx "notif." a
    · by_cases h2 : hasPfx "notif.uniqush." a
      · simp only [h1, h2, if_true]
        exact ih _ _
      · have hak : k ≠ a := by
          intro hh
          rw [hh] at hk
          simp [copyable, h1, h2] at hk
        simp only [h1, h2, if_true, Bool.false_eq_true, if_false]
        have := ih (mapInsert a b e) (mapErase a h)
        rw [this.1, this.2, mapGet_insert_ne _ _ _ _ hak, mapGet_erase_ne _ _ _ hak]
        exact ⟨rfl, rfl⟩
    · simp only [h1, if_false]
      exact ih _ _

theorem copyLoop_get_of_copied (todo : List (String × String)) (e h : Smap)
    (k v : String) (hnd : (todo.map Prod.fst).Nodup)
    (hget : mapGet todo k = some v) (hk : copyable k = true) :
    mapGet (copyLoop todo e h).1 k = some v ∧
      mapGet (copyLoop todo e h).2 k = none := by
  induction todo generalizing e h with
  | nil => simp [mapGet] at hget
  | cons p rest ih =>
    obtain ⟨a, b⟩ := p
    simp only [List.map_cons, List.nodup_cons] at hnd
    by_cases hak : a = k
    · subst hak
      have hbv : b = v := by
        simpa [mapGet] using hget
      rw [← hbv]
      have h1 : hasPfx "notif." a = true := by
        simp [copyable] at hk
        exact hk.1
      have h2 : hasPfx "notif.uniqush." a = false := by
        simp [copyable] at hk
        simpa using hk.2
      rw [copyLoop]
      simp only [h1, h2, if_true, Bool.false_eq_true, if_false]
      have := copyLoop_get_of_not_mem rest (mapInsert a b e) (mapErase a h) a hnd.1
      rw [this.1, this.2, mapGet_insert_self, mapGet_erase_self]
      exact ⟨rfl, rfl⟩
    · have hget' : mapGet rest k = some v := by
        simpa [mapGet, hak] using hget
      rw [copyLoop]
      by_cases h1 : hasPfx "notif." a
      · by_cases h2 : hasPfx "notif.uniqush." a
        · simp only [h1, h2, if_true]
          exact ih _ _ hnd.2 hget'
        · simp only [h1, h2, if_true, Bool.false_eq_true, if_false]
          exact ih _ _ hnd.2 hget'
      · simp only [h1, if_false]
        exact ih _ _ hnd.2 hget'

theorem copyLoop_result_not_copyable (todo : List (String × String)) (e h : Smap)
    (hsub : ∀ p ∈ h, copyable p.1 = true → p.1 ∈ todo.map Prod.fst) :
    ∀ p ∈ (copyLoop todo e h).2, copyable p.1 = false := by
  induction todo generalizing e h with
  | nil =>
    intro p hp
    rcases Bool.eq_false_or_eq_true (copyable p.1) with ht | hf
    · exact absurd (hsub p hp ht) (by simp)
    · exact hf
  | cons q rest ih =>
    obtain ⟨a, b⟩ := q
    rw [copyLoop]
    by_cases h1 : hasPfx "notif." a
    · by_cases h2 : hasPfx "notif.uniqush." a
      · simp only [h1, h2, if_true]
        refine ih e h ?_
        intro p hp hc
        have := hsub p hp hc
        simp only [List.map_cons] at this
        rcases List.mem_cons.mp this with heq | hm
        · rw [heq] at hc
          simp [copyable, h2] at hc
        · exact hm
      · simp only [h1, h2, if_true, if_false]
        refine ih (mapInsert a b e) (mapErase a h) ?_
        intro p hp hc
        have hmem := (mem_mapErase a h).mp hp
        have := hsub p hmem.1 hc
        simp only [List.map_cons] at this
        rcases List.mem_cons.mp this with heq | hm
        · exact absurd heq hmem.2
        · exact hm
    · simp only [h1, if_false]
      refine ih e h ?_
      intro p hp hc
      have := hsub p hp hc
      simp only [List.map_cons] at this
      rcases List.mem_cons.mp this with heq | hm
      · rw [heq] at hc
        simp [copyable, h1] at hc
      · exact hm

theorem copyLoop_id (todo : List (String × String)) (e h : Smap)
    (hnc : ∀ p ∈ todo, copyable p.1 = false) :
    copyLoop todo e h = (e, h) := by
  induction todo with
  | nil => rfl
  | cons p rest ih =>
    obtain ⟨a, b⟩ := p
    have ha := hnc (a, b) (List.mem_cons_self _ _)
    have hrest : ∀ p ∈ rest, copyable p.1 = false :=
      fun p hp => hnc p (List.mem_cons_of_mem _ hp)
    rw [copyLoop]
    by_cases h1 : hasPfx "notif." a
    · by_cases h2 : hasPfx "notif.uniqush." a
      · simp only [h1, h2, if_true]
        exact ih hrest
      · simp [copyable, h1, h2] at ha
    · simp only [h1, if_false]
      exact ih hrest

theorem titleStep_get_ne (h e : Smap) (k : String) (hk : k ≠ "notif.msg") :
    mapGet (titleStep h e) k = mapGet e k := by
  rw [titleStep]
  cases mapGet h "title" with
  | none => rfl
  | some t =>
    cases mapGet e "notif.msg" with
    | some w => rfl
    | none => exact mapGet_insert_ne _ _ _ _ hk

theorem titleStep_of_get_some (h e : Smap) (w : String)
    (hw : mapGet e "notif.msg" = some w) : titleStep h e = e := by
  rw [titleStep]
  cases mapGet h "title" with
  | none => rfl
  | some t => rw [hw]

theorem titleStep_of_no_title (h e : Smap) (ht : mapGet h "title" = none) :
    titleStep h e = e := by
  rw [titleStep, ht]

theorem titleStep_get_notifmsg (h e : Smap) (t : String)
    (ht : mapGet h "title" = some t) :
    ∃ w, mapGet (titleStep h e) "notif.msg" = some w := by
  rw [titleStep, ht]
  cases he : mapGet e "notif.msg" with
  | some w => exact ⟨w, he⟩
  | none => exact ⟨t, mapGet_insert_self _ _ _⟩

theorem titleStep_set (h e : Smap) (t : String)
    (ht : mapGet h "title" = some t) (he : mapGet e "notif.msg" = none) :
    titleStep h e = mapInsert "notif.msg" t e := by
  rw [titleStep, ht, he]

/-- Unfolding of getPushInfo with the forward flag set. -/
theorem getPushInfo_true_eq (msg : Message) (e : Option Smap) :
    getPushInfo msg e true =
      (mapInsert "notif.uniqush.msgsize" (toString msg.size)
        (titleStep (copyLoop msg.header (e.getD []) msg.header).2
          (mapInsert "uniqush.sender-service" msg.senderService
            (mapInsert "uniqush.sender" msg.sender
              (copyLoop msg.header (e.getD []) msg.header).1))),
       { msg with header := (copyLoop msg.header (e.getD []) msg.header).2 }) := rfl

/-- Unfolding of getPushInfo with the forward flag clear. -/
theorem getPushInfo_false_eq (msg : Message) (e : Option Smap) :
    getPushInfo msg e false =
      (mapInsert "notif.uniqush.msgsize" (toString msg.size)
        (titleStep msg.header (e.getD [])),
       msg) := rfl

/-- The extra map produced by getPushInfo always binds "notif.msg" whenever
the message (after any stripping) still carries a "title" header. -/
theorem getPushInfo_notifmsg_some (msg : Message) (e : Option Smap) (fwd : Bool)
    (t : String) (ht : mapGet (getPushInfo msg e fwd).2.header "title" = some t) :
    ∃ w, mapGet (getPushInfo msg e fwd).1 "notif.msg" = some w := by
  cases fwd with
  | false =>
    rw [getPushInfo_false_eq] at ht ⊢
    obtain ⟨w, hw⟩ := titleStep_get_notifmsg msg.header (e.getD []) t ht
    refine ⟨w, ?_⟩
    rw [mapGet_insert_ne _ _ _ _ (by decide), hw]
  | true =>
    rw [getPushInfo_true_eq] at ht ⊢
    simp only at ht
    obtain ⟨w, hw⟩ := titleStep_get_notifmsg
      (copyLoop msg.header (e.getD []) msg.header).2
      (mapInsert "uniqush.sender-service" msg.senderService
        (mapInsert "uniqush.sender" msg.sender
          (copyLoop msg.header (e.getD []) msg.header).1)) t ht
    refine ⟨w, ?_⟩
    rw [mapGet_insert_ne _ _ _ _ (by decide), hw]

/-- Every pair surviving in the header returned by the forward copy loop has
a non-copyable key, since the loop visits every original key. -/
theorem copyLoop_self_not_copyable (hdr e : Smap) :
    ∀ p ∈ (copyLoop hdr e hdr).2, copyable p.1 = false :=
  copyLoop_result_not_copyable hdr e hdr
    (fun _ hp _ => List.mem_map_of_mem Prod.fst hp)

/-- C7: push-info synthesis is idempotent. Re-invoking getPushInfo on the
(possibly stripped) message and the extra map produced by a first
invocation returns that extra map unchanged, for every message, initial
extra map and forward flag. -/
theorem getPushInfo_idempotent (msg : Message) (e : Option Smap) (fwd : Bool) :
    (getPushInfo (getPushInfo msg e fwd).2 (some (getPushInfo msg e fwd).1) fwd).1
      = (getPushInfo msg e fwd).1 := by
  cases fwd with
  | false =>
    rw [getPushInfo_false_eq, getPushInfo_false_eq]
    simp only [Option.getD_some]
    have hts : titleStep msg.header
        (mapInsert "notif.uniqush.msgsize" (toString msg.size)
          (titleStep msg.header (e.getD []))) =
        mapInsert "notif.uniqush.msgsize" (toString msg.size)
          (titleStep msg.header (e.getD [])) := by
      cases ht : mapGet msg.header "title" with
      | none => exact titleStep_of_no_title _ _ ht
      | some t =>
        obtain ⟨w, hw⟩ := titleStep_get_notifmsg msg.header (e.getD []) t ht
        refine titleStep_of_get_some _ _ w ?_
        rw [mapGet_insert_ne _ _ _ _ (by decide), hw]
    rw [hts]
    exact mapInsert_get_eq _ _ _ (mapGet_insert_self _ _ _)
  | true =>
    rw [getPushInfo_true_eq, getPushInfo_true_eq]
    simp only [Option.getD_some]
    have hid : copyLoop (copyLoop msg.header (e.getD []) msg.header).2
        (mapInsert "notif.uniqush.msgsize" (toString msg.size)
          (titleStep (copyLoop msg.header (e.getD []) msg.header).2
            (mapInsert "uniqush.sender-service" msg.senderService
              (mapInsert "uniqush.sender" msg.sender
                (copyLoop msg.header (e.getD []) msg.header).1))))
        (copyLoop msg.header (e.getD []) msg.header).2 =
        (mapInsert "notif.uniqush.msgsize" (toString msg.size)
          (titleStep (copyLoop msg.header (e.getD []) msg.header).2
            (mapInsert "uniqush.sender-service" msg.senderService
              (mapInsert "uniqush.sender" msg.sender
                (copyLoop msg.header (e.getD []) msg.header).1))),
         (copyLoop msg.header (e.getD []) msg.header).2) :=
      copyLoop_id _ _ _ (copyLoop_self_not_copyable msg.header (e.getD []))
    rw [hid]
    set hc := (copyLoop msg.header (e.getD []) msg.header).2 with hhc
    set ec := (copyLoop msg.header (e.getD []) msg.header).1 with hec
    set B := mapInsert "uniqush.sender-service" msg.senderService
      (mapInsert "uniqush.sender" msg.sender ec) with hB
    set e1 := mapInsert "notif.uniqush.msgsize" (toString msg.size)
      (titleStep hc B) with he1
    have hgSK : mapGet e1 "uniqush.sender" = some msg.sender := by
      rw [he1, mapGet_insert_ne _ _ _ _ (by decide),
        titleStep_get_ne _ _ _ (by decide), hB,
        mapGet_insert_ne _ _ _ _ (by decide), mapGet_insert_self]
    have hgSSK : mapGet e1 "uniqush.sender-service" = some msg.senderService := by
      rw [he1, mapGet_insert_ne _ _ _ _ (by decide),
        titleStep_get_ne _ _ _ (by decide), hB, mapGet_insert_self]
    rw [mapInsert_get_eq _ _ _ hgSK, mapInsert_get_eq _ _ _ hgSSK]
    have hts : titleStep hc e1 = e1 := by
      cases ht : mapGet hc "title" with
      | none => exact titleStep_of_no_title _ _ ht
      | some t =>
        obtain ⟨w, hw⟩ := titleStep_get_notifmsg hc B t ht
        refine titleStep_of_get_some _ _ w ?_
        rw [he1, mapGet_insert_ne _ _ _ _ (by decide), hw]
    rw [hts]
    exact mapInsert_get_eq _ _ _ (by rw [he1, mapGet_insert_self])

/-- C6 counterexample: with the forward flag clear, getPushInfo copies no
"notif."-prefixed header at all, contradicting the claim that every such
header of the message is copied into the returned extra map. -/
theorem getPushInfo_no_copy_when_not_fwd :
    mapGet (getPushInfo c6msg none false).1 "notif.a" ≠ some "1" := by decide

/-- C6 amended: getPushInfo copies the non-reserved "notif."-prefixed
headers (and deletes them from the message, and sets the sender
attribution keys) only when fwd is true; reserved "notif.uniqush." keys
are never copied; the title fallback and the synthesized decimal message
size behave as claimed for either flag; and when fwd is false the message
is untouched and no header is copied. -/
theorem getPushInfo_amended_spec (msg : Message) (extra : Option Smap)
    (hnd : (msg.header.map Prod.fst).Nodup) :
    (∀ k v, mapGet msg.header k = some v → copyable k = true →
       mapGet (getPushInfo msg extra true).1 k = some v ∧
       mapGet (getPushInfo msg extra true).2.header k = none)
    ∧ (∀ fwd k, hasPfx "notif.uniqush." k = true →
       k ≠ "notif.uniqush.msgsize" →
       mapGet (getPushInfo msg extra fwd).1 k = mapGet (extra.getD []) k)
    ∧ mapGet (getPushInfo msg extra true).1 "uniqush.sender" = some msg.sender
    ∧ mapGet (getPushInfo msg extra true).1 "uniqush.sender-service"
        = some msg.senderService
    ∧ (∀ fwd t, mapGet msg.header "title" = some t →
       mapGet (extra.getD []) "notif.msg" = none →
       mapGet msg.header "notif.msg" = none →
       mapGet (getPushInfo msg extra fwd).1 "notif.msg" = some t)
    ∧ (∀ fwd, mapGet (getPushInfo msg extra fwd).1 "notif.uniqush.msgsize"
        = some (toString msg.size))
    ∧ (getPushInfo msg extra false).2 = msg
    ∧ (∀ k, copyable k = true → k ≠ "notif.msg" →
       mapGet (getPushInfo msg extra false).1 k = mapGet (extra.getD []) k) := by
  set E0 := extra.getD [] with hE0
  set ec := (copyLoop msg.header E0 msg.header).1 with hec
  set hc := (copyLoop msg.header E0 msg.header).2 with hhc
  set B := mapInsert "uniqush.sender-service" msg.senderService
    (mapInsert "uniqush.sender" msg.sender ec) with hB
  have hres1 : (getPushInfo msg extra true).1 =
      mapInsert "notif.uniqush.msgsize" (toString msg.size) (titleStep hc B) := by
    rw [getPushInfo_true_eq]
  have hres2 : (getPushInfo msg extra true).2.header = hc := by
    rw [getPushInfo_true_eq]
  have hresf : (getPushInfo msg extra false).1 =
      mapInsert "notif.uniqush.msgsize" (toString msg.size)
        (titleStep msg.header E0) := by
    rw [getPushInfo_false_eq]
  refine ⟨?_, ?_, ?_, ?_, ?_, ?_, ?_, ?_⟩
  · intro k v hget hcp
    have hkMK : k ≠ "notif.uniqush.msgsize" := by
      intro hh
      rw [hh] at hcp
      exact absurd hcp (by decide)
    have hkSK : k ≠ "uniqush.sender" := by
      intro hh
      rw [hh] at hcp
      exact absurd hcp (by decide)
    have hkSSK : k ≠ "uniqush.sender-service" := by
      intro hh
      rw [hh] at hcp
      exact absurd hcp (by decide)
    have hcl := copyLoop_get_of_copied msg.header E0 msg.header k v hnd hget hcp
    have hBk : mapGet B k = some v := by
      rw [hB, mapGet_insert_ne _ _ _ _ hkSSK, mapGet_insert_ne _ _ _ _ hkSK]
      exact hcl.1
    have hTk : mapGet (titleStep hc B) k = some v := by
      by_cases hkNM : k = "notif.msg"
      · rw [titleStep_of_get_some hc B v (hkNM ▸ hBk)]
        exact hBk
      · rw [titleStep_get_ne _ _ _ hkNM]
        exact hBk
    constructor
    · rw [hres1, mapGet_insert_ne _ _ _ _ hkMK]
      exact hTk
    · rw [hres2]
      exact hcl.2
  · intro fwd k hrsv hkMK
    have hkNM : k ≠ "notif.msg" := by
      intro hh
      rw [hh] at hrsv
      exact absurd hrsv (by decide)
    have hkSK : k ≠ "uniqush.sender" := by
      intro hh
      rw [hh] at hrsv
      exact absurd hrsv (by decide)
    have hkSSK : k ≠ "uniqush.sender-service" := by
      intro hh
      rw [hh] at hrsv
      exact absurd hrsv (by decide)
    have hncp : copyable k = false := by
      simp [copyable, hrsv]
    cases fwd with
    | false =>
      rw [hresf, mapGet_insert_ne _ _ _ _ hkMK, titleStep_get_ne _ _ _ hkNM]
    | true =>
      rw [hres1, mapGet_insert_ne _ _ _ _ hkMK, titleStep_get_ne _ _ _ hkNM,
        hB, mapGet_insert_ne _ _ _ _ hkSSK, mapGet_insert_ne _ _ _ _ hkSK, hec]
      exact (copyLoop_get_of_not_copyable msg.header E0 msg.header k hncp).1
  · rw [hres1, mapGet_insert_ne _ _ _ _ (by decide),
      titleStep_get_ne _ _ _ (by decide), hB,
      mapGet_insert_ne _ _ _ _ (by decide), mapGet_insert_self]
  · rw [hres1, mapGet_insert_ne _ _ _ _ (by decide),
      titleStep_get_ne _ _ _ (by decide), hB, mapGet_insert_self]
  · intro fwd t ht he hh
    cases fwd with
    | false =>
      rw [hresf, mapGet_insert_ne _ _ _ _ (by decide),
        titleStep_set msg.header E0 t ht he, mapGet_insert_self]
    | true =>
      have hTitleHc : mapGet hc "title" = some t := by
        rw [hhc]
        rw [(copyLoop_get_of_not_copyable msg.header E0 msg.header "title"
          (by decide)).2]
        exact ht
      have hBNM : mapGet B "notif.msg" = none := by
        rw [hB, mapGet_insert_ne _ _ _ _ (by decide),
          mapGet_insert_ne _ _ _ _ (by decide), hec]
        rw [(copyLoop_get_of_not_mem msg.header E0 msg.header "notif.msg"
          ((mapGet_eq_none_iff _ _).mp hh)).1]
        exact he
      rw [hres1, mapGet_insert_ne _ _ _ _ (by decide),
        titleStep_set hc B t hTitleHc hBNM, mapGet_insert_self]
  · intro fwd
    cases fwd with
    | false => rw [hresf, mapGet_insert_self]
    | true => rw [hres1, mapGet_insert_self]
  · rw [getPushInfo_false_eq]
  · intro k hcp hkNM
    have hkMK : k ≠ "notif.uniqush.msgsize" := by
      intro hh
      rw [hh] at hcp
      exact absurd hcp (by decide)
    rw [hresf, mapGet_insert_ne _ _ _ _ hkMK, titleStep_get_ne _ _ _ hkNM]

/-! ## The connection registry (treeBasedConnMap) -/

theorem entGet_entPut_self (ents : List (String × List Conn)) (u : String)
    (cl : List Conn) : entGet (entPut ents u cl) u = some cl := by
  induction ents with
  | nil => simp [entPut, entGet]
  | cons e rest ih =>
    obtain ⟨w, l⟩ := e
    by_cases hw : w = u
    · subst hw
      simp [entPut, entGet]
    · simp [entPut, entGet, hw, ih]

theorem entGet_entPut_ne (ents : List (String × List Conn)) (u u' : String)
    (cl : List Conn) (h : u' ≠ u) :
    entGet (entPut ents u cl) u' = entGet ents u' := by
  induction ents with
  | nil => simp [entPut, entGet, Ne.symm h]
  | cons e rest ih =>
    obtain ⟨w, l⟩ := e
    by_cases hw : w = u
    · subst hw
      simp [entPut, entGet, Ne.symm h]
    · by_cases hw' : w = u'
      · subst hw'
        simp [entPut, entGet, hw]
      · simp [entPut, entGet, hw, hw', ih]

theorem entPut_length_found (ents : List (String × List Conn)) (u : String)
    (cl : List Conn) (h : (entGet ents u).isSome = true) :
    (entPut ents u cl).length = ents.length := by
  induction ents with
  | nil => simp [entGet] at h
  | cons e rest ih =>
    obtain ⟨w, l⟩ := e
    by_cases hw : w = u
    · subst hw
      simp [entPut]
    · simp [entGet, hw] at h
      simp [entPut, hw, ih h]

theorem entPut_length_new (ents : List (String × List Conn)) (u : String)
    (cl : List Conn) (h : entGet ents u = none) :
    (entPut ents u cl).length = ents.length + 1 := by
  induction ents with
  | nil => simp [entPut]
  | cons e rest ih =>
    obtain ⟨w, l⟩ := e
    by_cases hw : w = u
    · subst hw
      simp [entGet] at h
    · simp [entGet, hw] at h
      simp [entPut, hw, ih h]

/-- C1 (the claim is right, the code is wrong): deleting a connection whose
uniqId is absent from a non-empty entry removes a connection anyway and
returns true, because the Go scan loop leaves its index at the last
position when nothing matches. Here the entry for "u" holds only uniqId
"a", yet DelConn of uniqId "b" empties the registry and reports true,
where the claim requires false and no mutation. -/
theorem delConn_nonmember_mutates :
    DelConn regUA (some cB) = (true, ⟨[]⟩) := by decide

/-- C2 (the claim is right, the code is wrong): two join events carrying
the same connection leave nrConns at 2 while the registry holds a single
connection, because the idempotent re-add reports success and the join
branch increments the counter unconditionally on success. -/
theorem nrConns_desync :
    (runEvents 0 0 0 [Event.join (some cA), Event.join (some cA)]).nrConns = 2
    ∧ (runEvents 0 0 0
        [Event.join (some cA), Event.join (some cA)]).registry.totalConns = 1 := by
  decide

/-- C3 counterexample: re-adding the very connection already stored under
"u" fails with TooManyConnForThisUser when the entry is at the per-user
capacity, because AddConn checks capacity before the uniqId scan; the
claim demands success for all maxPerUser values. -/
theorem readd_at_capacity_fails :
    AddConn regUA (some cA) 1 5
      = Except.error RegErr.tooManyConnForThisUser := rfl

/-- C3 amended: re-adding a connection whose uniqId already occurs in its
user's entry returns success and leaves the registry unchanged for every
maxNrUsers and every maxNrConnsPerUser that passes the per-user capacity
check (the cap is either non-positive or strictly above the entry's
length). -/
theorem readd_idempotent (reg : Registry) (c : Conn) (cl : List Conn)
    (maxNrConnsPerUser maxNrUsers : Int)
    (hget : GetConn reg (connKey c) = some cl)
    (hdup : cl.any (fun x => x.uniqId == c.uniqId) = true)
    (hcap : ¬ (maxNrConnsPerUser > 0 ∧ (cl.length : Int) ≥ maxNrConnsPerUser)) :
    AddConn reg (some c) maxNrConnsPerUser maxNrUsers = Except.ok reg := by
  simp only [AddConn, hget, addConnWithList, hdup, if_true, if_neg hcap]

/-- Witness for the amended C3 at a concrete registry: with no caps, the
stored connection re-adds as a no-op success. -/
theorem readd_idempotent_witness :
    AddConn regUA (some cA) 0 0 = Except.ok regUA :=
  readd_idempotent regUA cA [cA] 0 0 (by decide) (by decide) (by decide)

/-- C9 (the claim is right, the code is wrong): a per-service webhook map
that omits its timeout key parses with the Go zero value 0, and setWebHook
replaces the parsed timeout only when it is negative, so the per-service
timeout (3 seconds by default) is never applied: the configured hook keeps
timeout 0 instead of the claimed 3 seconds. -/
theorem webhook_default_timeout_not_applied :
    setWebHook hookNodeNoTimeout (serviceTimeout none)
      = Except.ok ⟨"http://example.com/hook", 0, 404⟩
    ∧ (0 : Int) ≠ serviceTimeout none := ⟨rfl, by decide⟩

/-- C10: AddConn on a nil connection is reported as success with the
registry untouched, for every registry and both caps, and consequently a
join event carrying a nil connection that passes the global cap is
admitted and increments nrConns while adding nothing. -/
theorem addConn_nil_admitted :
    (∀ (reg : Registry) (mpu mu : Int), AddConn reg none mpu mu = Except.ok reg)
    ∧ (∀ (mc mpu mu : Int) (s : SCState), ¬ (mc > 0 ∧ s.nrConns ≥ mc) →
        stepJoin mc mpu mu s none =
          ({ registry := s.registry, nrConns := s.nrConns + 1 }, JoinReply.ok)) := by
  constructor
  · intro reg mpu mu
    rfl
  · intro mc mpu mu s h
    rw [stepJoin, if_neg h]
    rfl

/-- Witness for C10 at the initial state with a global cap of 5. -/
theorem addConn_nil_admitted_witness :
    stepJoin 5 0 0 ⟨⟨[]⟩, 0⟩ none = (⟨⟨[]⟩, 1⟩, JoinReply.ok) :=
  addConn_nil_admitted.2 5 0 0 ⟨⟨[]⟩, 0⟩ (by decide)

/-- Case analysis of a successful AddConn on a non-nil connection: either
the user had an entry (whose per-user cap check passed) and the result is
the old registry (idempotent re-add) or the entry extended by the new
connection; or the user had no entry (and the user cap check passed) and
the result is the old registry with a fresh singleton entry. -/
theorem AddConn_ok_cases (reg : Registry) (c : Conn) (mpu mu : Int)
    (reg' : Registry) (hok : AddConn reg (some c) mpu mu = Except.ok reg') :
    (∃ cl, GetConn reg (connKey c) = some cl ∧
       ¬ (mpu > 0 ∧ (cl.length : Int) ≥ mpu) ∧
       (reg' = reg ∨ reg' = ⟨entPut reg.entries (connKey c) (cl ++ [c])⟩))
    ∨ (GetConn reg (connKey c) = none ∧
       ¬ (mu > 0 ∧ (reg.entries.length : Int) ≥ mu) ∧
       (reg' = reg ∨ reg' = ⟨entPut reg.entries (connKey c) [c]⟩)) := by
  cases hget : GetConn reg (connKey c) with
  | some cl =>
    simp only [AddConn, hget] at hok
    rw [addConnWithList] at hok
    by_cases h1 : mpu > 0 ∧ (cl.length : Int) ≥ mpu
    · rw [if_pos h1] at hok
      exact absurd hok (by simp)
    · rw [if_neg h1] at hok
      by_cases h2 : cl.any (fun x => x.uniqId == c.uniqId) = true
      · rw [if_pos h2] at hok
        injection hok with hh
        exact Or.inl ⟨cl, rfl, h1, Or.inl hh.symm⟩
      · rw [if_neg h2] at hok
        injection hok with hh
        exact Or.inl ⟨cl, rfl, h1, Or.inr hh.symm⟩
  | none =>
    simp only [AddConn, hget] at hok
    by_cases h1 : mu > 0 ∧ (reg.entries.length : Int) ≥ mu
    · rw [if_pos h1] at hok
      exact absurd hok (by simp)
    · rw [if_neg h1] at hok
      rw [addConnWithList] at hok
      by_cases h2 : mpu > 0 ∧ ((([] : List Conn).length : Nat) : Int) ≥ mpu
      · rw [if_pos h2] at hok
        exact absurd hok (by simp)
      · rw [if_neg h2] at hok
        rw [if_neg (by simp)] at hok
        injection hok with hh
        simp only [List.nil_append] at hh
        exact Or.inr ⟨rfl, h1, Or.inr hh.symm⟩

/-- C4: capacity is never exceeded. A successful AddConn never grows an
entry past maxNrConnsPerUser (when positive) nor the entry count past
maxNrUsers (when positive); at-capacity calls fail with
TooManyConnForThisUser and TooManyUsers respectively; and a join event
arriving when nrConns has reached a positive maxNrConns is answered with
TooManyConns and changes nothing. -/
theorem capacity_never_exceeded :
    (∀ (reg : Registry) (conn : Option Conn) (mpu mu : Int) (reg' : Registry)
       (u : String),
       AddConn reg conn mpu mu = Except.ok reg' → mpu > 0 →
       entryLen reg u < entryLen reg' u → (entryLen reg' u : Int) ≤ mpu)
    ∧ (∀ (reg : Registry) (conn : Option Conn) (mpu mu : Int) (reg' : Registry),
       AddConn reg conn mpu mu = Except.ok reg' → mu > 0 →
       reg.entries.length < reg'.entries.length →
       (reg'.entries.length : Int) ≤ mu)
    ∧ (∀ (mc mpu mu : Int) (s : SCState) (conn : Option Conn),
       mc > 0 → s.nrConns ≥ mc →
       stepJoin mc mpu mu s conn = (s, JoinReply.tooManyConns))
    ∧ (∀ (reg : Registry) (c : Conn) (mpu mu : Int) (cl : List Conn),
       GetConn reg (connKey c) = some cl → mpu > 0 → (cl.length : Int) ≥ mpu →
       AddConn reg (some c) mpu mu = Except.error RegErr.tooManyConnForThisUser)
    ∧ (∀ (reg : Registry) (c : Conn) (mpu mu : Int),
       GetConn reg (connKey c) = none → mu > 0 →
       (reg.entries.length : Int) ≥ mu →
       AddConn reg (some c) mpu mu = Except.error RegErr.tooManyUsers) := by
  refine ⟨?_, ?_, ?_, ?_, ?_⟩
  · intro reg conn mpu mu reg' u hok hmpu hgrow
    cases conn with
    | none =>
      have : reg = reg' := by
        simpa [AddConn] using hok
      rw [← this] at hgrow
      exact absurd hgrow (lt_irrefl _)
    | some c =>
      rcases AddConn_ok_cases reg c mpu mu reg' hok with
        ⟨cl, hget, hcap, hreg⟩ | ⟨hget, hucap, hreg⟩
      · rcases hreg with rfl | rfl
        · exact absurd hgrow (lt_irrefl _)
        · by_cases hu : u = connKey c
          · subst hu
            have hlen : entryLen ⟨entPut reg.entries (connKey c) (cl ++ [c])⟩
                (connKey c) = cl.length + 1 := by
              simp [entryLen, GetConn, entGet_entPut_self]
            rw [hlen]
            have hlt : (cl.length : Int) < mpu :=
              lt_of_not_ge ((not_and.mp hcap) hmpu)
            push_cast
            omega
          · have heq : entryLen ⟨entPut reg.entries (connKey c) (cl ++ [c])⟩ u
                = entryLen reg u := by
              simp [entryLen, GetConn, entGet_entPut_ne _ _ _ _ hu]
            rw [heq] at hgrow
            exact absurd hgrow (lt_irrefl _)
      · rcases hreg with rfl | rfl
        · exact absurd hgrow (lt_irrefl _)
        · by_cases hu : u = connKey c
          · subst hu
            have hlen : entryLen ⟨entPut reg.entries (connKey c) [c]⟩
                (connKey c) = 1 := by
              simp [entryLen, GetConn, entGet_entPut_self]
            rw [hlen]
            push_cast
            omega
          · have heq : entryLen ⟨entPut reg.entries (connKey c) [c]⟩ u
                = entryLen reg u := by
              simp [entryLen, GetConn, entGet_entPut_ne _ _ _ _ hu]
            rw [heq] at hgrow
            exact absurd hgrow (lt_irrefl _)
  · intro reg conn mpu mu reg' hok hmu hgrow
    cases conn with
    | none =>
      have : reg = reg' := by
        simpa [AddConn] using hok
      rw [← this] at hgrow
      exact absurd hgrow (lt_irrefl _)
    | some c =>
      rcases AddConn_ok_cases reg c mpu mu reg' hok with
        ⟨cl, hget, hcap, hreg⟩ | ⟨hget, hucap, hreg⟩
      · rcases hreg with rfl | rfl
        · exact absurd hgrow (lt_irrefl _)
        · have heq : (entPut reg.entries (connKey c) (cl ++ [c])).length
              = reg.entries.length := by
            refine entPut_length_found _ _ _ ?_
            have : entGet reg.entries (connKey c) = some cl := hget
            simp [this]
          rw [show (⟨entPut reg.entries (connKey c) (cl ++ [c])⟩ : Registry).entries
              = entPut reg.entries (connKey c) (cl ++ [c]) from rfl, heq] at hgrow
          exact absurd hgrow (lt_irrefl _)
      · rcases hreg with rfl | rfl
        · exact absurd hgrow (lt_irrefl _)
        · have heq : (entPut reg.entries (connKey c) [c]).length
              = reg.entries.length + 1 :=
            entPut_length_new _ _ _ hget
          have hlt : (reg.entries.length : Int) < mu :=
            lt_of_not_ge ((not_and.mp hucap) hmu)
          rw [show (⟨entPut reg.entries (connKey c) [c]⟩ : Registry).entries
              = entPut reg.entries (connKey c) [c] from rfl, heq]
          push_cast
          omega
  · intro mc mpu mu s conn hmc hnr
    rw [stepJoin, if_pos ⟨hmc, hnr⟩]
  · intro reg c mpu mu cl hget hmpu hlen
    simp only [AddConn, hget]
    rw [addConnWithList, if_pos ⟨hmpu, hlen⟩]
  · intro reg c mpu mu hget hmu hlen
    simp only [AddConn, hget]
    rw [if_pos ⟨hmu, hlen⟩]

/-- Witness for C4 at a concrete call: adding the first connection of "u"
under caps of 2 yields an entry of length 1, within the per-user cap. -/
theorem capacity_never_exceeded_witness :
    (entryLen ⟨[("u", [cA])]⟩ "u" : Int) ≤ 2 :=
  capacity_never_exceeded.1 ⟨[]⟩ (some cA) 2 2 ⟨[("u", [cA])]⟩ "u" rfl
    (by decide) (by decide)

/-- The reached counter computed by the write loop equals the number of
visible server connections whose send succeeded. -/
theorem writeLoop_reached (conns : List Conn) :
    (writeLoop conns).2.2 = nrVisibleDelivered conns := by
  induction conns with
  | nil => rfl
  | cons c rest ih =>
    cases hs : c.isServer with
    | false =>
      simp [writeLoop, hs, nrVisibleDelivered, List.countP_cons, ih]
    | true =>
      cases he : c.sendErr with
      | some e =>
        simp [writeLoop, hs, he, nrVisibleDelivered, List.countP_cons, ih]
      | none =>
        cases hv : c.visible with
        | false =>
          simp [writeLoop, hs, he, hv, nrVisibleDelivered, List.countP_cons, ih]
        | true =>
          simp [writeLoop, hs, he, hv, nrVisibleDelivered, List.countP_cons, ih]

/-- C5: a write event launches exactly one push-fallback task when the
count of visible connections that received the message without error is
zero, and none when at least one visible connection received it. -/
theorem write_push_fallback_decision (conns : List Conn) :
    (nrVisibleDelivered conns = 0 → nrPushTasks conns = 1)
    ∧ (0 < nrVisibleDelivered conns → nrPushTasks conns = 0) := by
  have h := writeLoop_reached conns
  constructor
  · intro h0
    have hz : (writeLoop conns).2.2 = 0 := h.trans h0
    simp [nrPushTasks, writeEvent, hz]
  · intro hpos
    have hnz : (writeLoop conns).2.2 ≠ 0 := by
      rw [h]
      omega
    simp [nrPushTasks, writeEvent, hnz]

/-- Witness for C5: the empty recipient list reaches nobody, so exactly one
fallback task is launched. -/
theorem write_push_fallback_decision_witness : nrPushTasks [] = 1 :=
  (write_push_fallback_decision []).1 rfl

theorem cacheLoop_ok_all (env : PushEnv) (k : Nat) :
    ∀ i0 : Nat, (cacheLoop env k i0).2 = true →
      ∀ j < k, exIsErr (env.cacheRes (i0 + j)) = false := by
  induction k with
  | zero =>
    intro i0 _ j hj
    exact absurd hj (Nat.not_lt_zero j)
  | succ k ih =>
    intro i0 hok j hj
    cases hres : env.cacheRes i0 with
    | ok v =>
      have hok2 : (cacheLoop env k (i0 + 1)).2 = true := by
        simpa [cacheLoop, hres] using hok
      cases j with
      | zero => simp [exIsErr, hres]
      | succ j2 =>
        have hlt : j2 < k := by omega
        have hstep := ih (i0 + 1) hok2 j2 hlt
        have heq : i0 + (j2 + 1) = i0 + 1 + j2 := by omega
        rw [heq]
        exact hstep
    | error e =>
      simp [cacheLoop, hres] at hok

theorem cacheLoop_actions (env : PushEnv) (k : Nat) :
    ∀ i0 : Nat, ∀ a ∈ (cacheLoop env k i0).1, ∃ i, a = FAction.cacheCall i := by
  induction k with
  | zero =>
    intro i0 a ha
    simp [cacheLoop] at ha
  | succ k ih =>
    intro i0 a ha
    cases hres : env.cacheRes i0 with
    | ok v =>
      simp only [cacheLoop, hres] at ha
      rcases List.mem_cons.mp ha with rfl | hm
      · exact ⟨i0, rfl⟩
      · exact ih (i0 + 1) a hm
    | error e =>
      simp only [cacheLoop, hres] at ha
      rcases List.mem_singleton.mp ha with rfl
      exact ⟨i0, rfl⟩

/-- C8: when any cacheMessage call made by the push-fallback task returns
an error, the task aborts without calling Push; every error-hook report the
task emits carries the Push error; and the synchronous result list a write
returns is independent of the cache and push outcomes. -/
theorem fallback_cache_error_aborts (env : PushEnv) :
    ((∃ i : Nat, (i : Int) < nrDeliveryPointsEnv env ∧
        exIsErr (env.cacheRes i) = true) →
      FAction.pushCall ∉ fallbackTask env)
    ∧ (∀ e, FAction.errorHook e ∈ fallbackTask env → env.pushErr = some e)
    ∧ (∀ (conns : List Conn) (env₂ : PushEnv),
        (writeHandler conns env).1 = (writeHandler conns env₂).1) := by
  refine ⟨?_, ?_, ?_⟩
  · rintro ⟨i, hi, herr⟩ hmem
    simp only [fallbackTask] at hmem
    by_cases hsp : env.shouldPush = false
    · rw [if_pos hsp] at hmem
      simp at hmem
    · rw [if_neg hsp] at hmem
      by_cases hn : nrDeliveryPointsEnv env ≤ 0
      · rw [if_pos hn] at hmem
        simp at hmem
      · rw [if_neg hn] at hmem
        by_cases hok : (cacheLoop env (nrDeliveryPointsEnv env).toNat 0).2 = true
        · have hall := cacheLoop_ok_all env (nrDeliveryPointsEnv env).toNat 0 hok
          have hitn : i < (nrDeliveryPointsEnv env).toNat := by omega
          have hfalse := hall i hitn
          rw [Nat.zero_add] at hfalse
          rw [hfalse] at herr
          exact Bool.noConfusion herr
        · rw [if_neg hok] at hmem
          obtain ⟨i2, hi2⟩ := cacheLoop_actions env _ 0 _ hmem
          exact FAction.noConfusion hi2
  · intro e hmem
    simp only [fallbackTask] at hmem
    by_cases hsp : env.shouldPush = false
    · rw [if_pos hsp] at hmem
      simp at hmem
    · rw [if_neg hsp] at hmem
      by_cases hn : nrDeliveryPointsEnv env ≤ 0
      · rw [if_pos hn] at hmem
        simp at hmem
      · rw [if_neg hn] at hmem
        by_cases hok : (cacheLoop env (nrDeliveryPointsEnv env).toNat 0).2 = true
        · rw [if_pos hok] at hmem
          rcases List.mem_append.mp hmem with hL | hR
          · obtain ⟨i2, hi2⟩ := cacheLoop_actions env _ 0 _ hL
            exact FAction.noConfusion hi2
          · rw [pushNotifActs] at hR
            by_cases hps : env.hasPushService = true
            · rw [if_pos hps] at hR
              rcases List.mem_cons.mp hR with h1 | h2
              · exact FAction.noConfusion h1
              · cases hpe : env.pushErr with
                | some e2 =>
                  rw [hpe] at h2
                  simp at h2
                  rw [h2]
                | none =>
                  rw [hpe] at h2
                  simp at h2
            · rw [if_neg hps] at hR
              simp at hR
        · rw [if_neg hok] at hmem
          obtain ⟨i2, hi2⟩ := cacheLoop_actions env _ 0 _ hmem
          exact FAction.noConfusion hi2
  · intro conns env₂
    rfl

/-- Witness for C8: in an environment whose single delivery point fails to
cache, the fallback task never calls Push. -/
theorem fallback_cache_error_aborts_witness :
    FAction.pushCall ∉ fallbackTask envW :=
  (fallback_cache_error_aborts envW).1 ⟨0, by decide, by decide⟩

/-- Witness for the amended C6: forwarding the sample message copies its
"notif.a" header into the extra map and strips it from the message. -/
theorem getPushInfo_amended_spec_witness :
    mapGet (getPushInfo c6msg none true).1 "notif.a" = some "1" ∧
    mapGet (getPushInfo c6msg none true).2.header "notif.a" = none :=
  (getPushInfo_amended_spec c6msg none (by decide)).1 "notif.a" "1"
    (by decide) (by decide)

end Uniqush
